import Mathlib

/-!
Shallow embedding of `src/index/updater.rs` (the ordinal chain indexer core):
the per-transaction ordinal-range assignment (`index_transaction`), the block
indexer (`index_block`), the write cache (`get_and_remove` / `insert` /
`flush`), the commit routine and the updater loop, together with the codec
for ordinal ranges, outpoints and satpoints.

Machine integers (u64 / u128) are modelled as `Nat`; every subtraction that
the source performs is guarded in the source by the surrounding control flow
(`remaining > 0`, `count > remaining`, range well-formedness `base ≤ end`),
so truncated `Nat` subtraction agrees with u64 subtraction on the inputs the
theorems quantify over (well-formedness is carried as a hypothesis where it
matters).  Fallible code returns `Except Err`, threading the mutated state so
that error paths expose exactly the mutations the source performed before
failing.  Loop-internal quantities that the claims talk about (assigned
ranges per output, satpoint writes, per-transaction leftover fee ranges, the
coinbase input deque, per-iteration commit decisions) are recorded alongside
the source-visible results; the byte buffers and state mutations themselves
are computed exactly as in the source.
-/

deriving instance DecidableEq for Except

namespace OrdCore

/-- An ordinal range `(base, end)`, half open, as popped from / pushed to the
`VecDeque<(u64, u64)>` of the source. -/
abbrev Range := Nat × Nat

/-- Total width of a list of ranges: sum of `end − base` over the list. -/
def sumWidths (l : List Range) : Nat := (l.map fun r => r.2 - r.1).sum

/-- The ordinals covered by one range, in order: `[base, end)`. -/
def ordinalsOf (r : Range) : List Nat := List.range' r.1 (r.2 - r.1)

/-- The ordinals covered by a list of ranges, in list order. -/
def coverage (l : List Range) : List Nat := l.flatMap ordinalsOf

/-- The low `len` bytes of the little-endian serialization of `n`
(`n.to_le_bytes()[0..len]` in the source). -/
def leBytes (n len : Nat) : List Nat := (List.range len).map fun i => n / 2 ^ (8 * i) % 256

/-- Byte-buffer contribution of one assigned range, exactly as the source
computes it: `n = base | (delta << 51)` as u128, low 11 bytes little-endian
(`src/index/updater.rs` lines 300–305).  There is no domain check. -/
def encodeAssigned (a : Range) : List Nat := leBytes (Nat.lor a.1 ((a.2 - a.1) <<< 51)) 11

/-- Modelled from the spec: `encode_range` of §4.1, the specification's codec
function, which fails (DomainEncodeError) if `end − base ≥ 2^21` or
`base ≥ 2^51`, and otherwise serializes `base | (length << 51)` low 11 bytes
little-endian.  Declared for comparison with the source's inline encoding
`encodeAssigned`. -/
def encode_range_spec (b e : Nat) : Option (List Nat) :=
  if 2 ^ 21 ≤ e - b ∨ 2 ^ 51 ≤ b then none
  else some (leBytes (Nat.lor b ((e - b) <<< 51)) 11)

/-- A transaction output point: transaction id plus output index.  The txid
(32 bytes in the source) is modelled as a `Nat`. -/
structure OutPoint where
  txid : Nat
  vout : Nat
deriving DecidableEq, Repr

/-- Modelled from the spec: `encode_outpoint` (§4.1), txid serialized to 32
bytes followed by the 4-byte little-endian vout; the definition is not under
`src/` (only its callers are).  Used as the key of the cache and of
`OUTPOINT_TO_ORDINAL_RANGES`. -/
def encodeOutpoint (op : OutPoint) : List Nat := leBytes op.txid 32 ++ leBytes op.vout 4

/-- Modelled from the spec: `encode_satpoint` (§4.1), 36 outpoint bytes
followed by the 8-byte little-endian offset; the definition is not under
`src/`. -/
def encodeSatpoint (op : OutPoint) (offset : Nat) : List Nat :=
  encodeOutpoint op ++ leBytes offset 8

/-- Modelled from the spec: `Index::decode_ordinal_range` (§4.1
`decode_range`), the inverse of the range encoding: read the 11 bytes
little-endian, split at bit 51; the definition is not under `src/`. -/
def decodeRange (bytes : List Nat) : Range :=
  let n := bytes.foldr (fun b acc => b + 256 * acc) 0
  (n % 2 ^ 51, n % 2 ^ 51 + n / 2 ^ 51)

/-- Exact chunks of 11 bytes (`chunks_exact(11)` in the source); a trailing
remainder shorter than 11 bytes is dropped. -/
def chunks11 : List Nat → List (List Nat)
  | b0 :: b1 :: b2 :: b3 :: b4 :: b5 :: b6 :: b7 :: b8 :: b9 :: b10 :: rest =>
    [b0, b1, b2, b3, b4, b5, b6, b7, b8, b9, b10] :: chunks11 rest
  | _ => []

/-- Association-list lookup, modelling `HashMap::get` / table `get` on the
encoded key. -/
def lookupA {α β : Type} [DecidableEq α] : List (α × β) → α → Option β
  | [], _ => none
  | p :: rest, k => if p.1 = k then some p.2 else lookupA rest k

/-- Remove every binding of a key, modelling `HashMap::remove` / table
`remove`. -/
def eraseA {α β : Type} [DecidableEq α] (l : List (α × β)) (k : α) : List (α × β) :=
  l.filter fun p => decide (p.1 ≠ k)

/-- Insert-or-overwrite a binding, modelling `HashMap::insert` / table
`insert`. -/
def insertA {α β : Type} [DecidableEq α] (l : List (α × β)) (k : α) (v : β) : List (α × β) :=
  (k, v) :: eraseA l k

/-- The persisted `STATISTIC` counters consumed by the core. -/
structure Stats where
  outputsTraversed : Nat
  commits : Nat
deriving DecidableEq, Repr

/-- The `Statistic` enum tags used by `commit`. -/
inductive Statistic where
  | outputsTraversed
  | commits
deriving DecidableEq, Repr

/-- Modelled from the spec: `Index::increment_statistic` (§4.6) adds `amount`
to `STATISTIC[key]`; the definition is not under `src/`. -/
def increment_statistic (st : Stats) (k : Statistic) (amount : Nat) : Stats :=
  match k with
  | .outputsTraversed => { st with outputsTraversed := st.outputsTraversed + amount }
  | .commits => { st with commits := st.commits + amount }

/-- The whole mutable state of the updater: the three tables and the
statistics of the open write transaction, plus the `Updater` struct fields
(`cache`, `outputs_traversed`, `outputs_cached`,
`outputs_inserted_since_flush`, `height`). -/
structure S where
  heightToBlockHash : List (Nat × Nat)
  outTable : List (List Nat × List Nat)
  satTable : List (Nat × List Nat)
  stats : Stats
  cache : List (List Nat × List Nat)
  outputs_traversed : Nat
  outputs_cached : Nat
  outputs_inserted_since_flush : Nat
  height : Nat
deriving DecidableEq, Repr

/-- The empty initial state: all tables and the cache empty, all counters
zero, height zero. -/
def S.empty : S := ⟨[], [], [], ⟨0, 0⟩, [], 0, 0, 0, 0⟩

/-- Error kinds of the core (§7).  `panicUnwrap` models the `unwrap()` panic
on a missing previous-height row rather than a returned error. -/
inductive Err where
  | insufficientInputs
  | missingOutpoint (key : List Nat)
  | reorgDetected (prevHeight : Nat)
  | panicUnwrap
deriving DecidableEq, Repr

/-- `Updater::get_and_remove`: serve a spent outpoint from the cache (removing
it and counting a cached hit) or else remove its row from
`OUTPOINT_TO_ORDINAL_RANGES`; fail if it is in neither. -/
def get_and_remove (s : S) (op : OutPoint) : S × Except Err (List Nat) :=
  let key := encodeOutpoint op
  match lookupA s.cache key with
  | some v =>
    ({ s with cache := eraseA s.cache key, outputs_cached := s.outputs_cached + 1 }, .ok v)
  | none =>
    match lookupA s.outTable key with
    | some v => ({ s with outTable := eraseA s.outTable key }, .ok v)
    | none => (s, .error (.missingOutpoint key))

/-- Result of the per-output while loop of `index_transaction`: the assigned
ranges in order, the byte buffer (`ordinals`), the `ORDINAL_TO_SATPOINT`
writes in order, and the remaining input deque. -/
structure OutputResult where
  assigned : List Range
  bytes : List Nat
  satWrites : List (Nat × List Nat)
  deque : List Range
deriving DecidableEq, Repr

/-- The `while remaining > 0` loop of `index_transaction` for one output of
value `v` at outpoint `op` (`src/index/updater.rs` lines 275–310): pop the
front range; if none, fail with InsufficientInputs (the error carries the
satpoint writes already performed); if its base is uncommon record a satpoint
at offset `v − remaining`; split the range when it is wider than `remaining`,
pushing the remainder back to the front; append the 11-byte encoding of the
assigned range to the buffer.  `rem` is the loop variable `remaining`. -/
def assignLoop (ic : Nat → Bool) (op : OutPoint) (v : Nat) :
    Nat → List Range → Except (List (Nat × List Nat)) OutputResult
  | 0, deque => .ok ⟨[], [], [], deque⟩
  | _ + 1, [] => .error []
  | rem + 1, (b, e) :: rest =>
    let w : List (Nat × List Nat) :=
      if ic b then [] else [(b, encodeSatpoint op (v - (rem + 1)))]
    let count := e - b
    if count > rem + 1 then
      let middle := b + (rem + 1)
      .ok ⟨[(b, middle)], encodeAssigned (b, middle), w, (middle, e) :: rest⟩
    else
      match assignLoop ic op v (rem + 1 - count) rest with
      | .error ws => .error (w ++ ws)
      | .ok r =>
        .ok ⟨(b, e) :: r.assigned, encodeAssigned (b, e) ++ r.bytes, w ++ r.satWrites, r.deque⟩

/-- A transaction output (only `value` is consumed by the core). -/
structure TxOut where
  value : Nat
deriving DecidableEq, Repr

/-- A transaction input (only `previous_output` is consumed by the core). -/
structure TxIn where
  previous_output : OutPoint
deriving DecidableEq, Repr

/-- A transaction; the txid is carried as a field (in the source it is the
externally computed hash `tx.txid()`). -/
structure Transaction where
  txid : Nat
  input : List TxIn
  output : List TxOut
deriving DecidableEq, Repr

/-- State mutation of `index_transaction` for one completed output: the
loop's satpoint writes folded into `ORDINAL_TO_SATPOINT` in order, the
output's byte buffer inserted into the cache under the encoded outpoint, and
`outputs_inserted_since_flush` incremented (`Updater::insert`). -/
def stepState (s : S) (txid vout : Nat) (r : OutputResult) : S :=
  { s with
    satTable := r.satWrites.foldl (fun t kv => insertA t kv.1 kv.2) s.satTable,
    cache := insertA s.cache (encodeOutpoint ⟨txid, vout⟩) r.bytes,
    outputs_inserted_since_flush := s.outputs_inserted_since_flush + 1 }

/-- `Updater::index_transaction` (lines 258–318): for each output in order,
run the assignment loop, fold its satpoint writes into `ORDINAL_TO_SATPOINT`,
and insert the output's byte buffer into the cache (incrementing
`outputs_inserted_since_flush`, i.e. `Updater::insert`).  Returns the
remaining input deque (the fee) and the per-output loop results.  On
InsufficientInputs the state still receives the satpoint writes the failing
loop performed, as in the source. -/
def index_transaction (ic : Nat → Bool) (txid : Nat) :
    S → List TxOut → Nat → List Range → S × Except Err (List Range × List OutputResult)
  | s, [], _, deque => (s, .ok (deque, []))
  | s, o :: rest, vout, deque =>
    match assignLoop ic ⟨txid, vout⟩ o.value o.value deque with
    | .error ws =>
      ({ s with satTable := ws.foldl (fun t kv => insertA t kv.1 kv.2) s.satTable },
        .error .insufficientInputs)
    | .ok r =>
      match index_transaction ic txid (stepState s txid vout r) rest (vout + 1) r.deque with
      | (s'', .error e) => (s'', .error e)
      | (s'', .ok (dq, results)) => (s'', .ok (dq, r :: results))

/-- Sum of the output values of a transaction. -/
def sumValues (outs : List TxOut) : Nat := (outs.map fun o => o.value).sum

/-- True exactly on `Except.error`. -/
def isErr {ε α : Type} : Except ε α → Bool
  | .error _ => true
  | .ok _ => false

/-- The external environment consumed by the block indexer: the
common/uncommon predicate on ordinals (`Ordinal::is_common`), and the height
arithmetic (`Height::subsidy`, `Height::starting_ordinal`).  All three live
outside `src/`; the core consumes them abstractly (spec §2, §3), so the
embedding takes them as parameters. -/
structure Env where
  isCommon : Nat → Bool
  subsidy : Nat → Nat
  startingOrdinal : Nat → Nat

/-- A block, with only the fields the core consumes: the header's previous
block hash, the block's own hash (externally computed `block_hash()`), the
header time, and the transactions (transaction 0 is the coinbase). -/
structure Block where
  prev_blockhash : Nat
  block_hash : Nat
  time : Nat
  txdata : List Transaction
deriving DecidableEq, Repr

/-- Build a transaction's input deque (lines 211–220): for each input,
`get_and_remove` its previous output's encoded ranges and decode them in
11-byte chunks, pushing the ranges to the back of the deque. -/
def buildInputDeque : S → List TxIn → List Range → S × Except Err (List Range)
  | s, [], acc => (s, .ok acc)
  | s, i :: rest, acc =>
    match get_and_remove s i.previous_output with
    | (s', .error e) => (s', .error e)
    | (s', .ok bytes) => buildInputDeque s' rest (acc ++ (chunks11 bytes).map decodeRange)

/-- The non-coinbase pass of `index_block` (lines 208–232): process
transactions 1.. in declared order, extending the coinbase input deque `cb`
with each transaction's leftover input ranges.  Returns the final state, the
extended coinbase deque, the per-transaction leftover lists in order, and the
number of outputs traversed. -/
def processTxs (ic : Nat → Bool) :
    S → List Transaction → List Range → S × Except Err (List Range × List (List Range) × Nat)
  | s, [], cb => (s, .ok (cb, [], 0))
  | s, tx :: rest, cb =>
    match buildInputDeque s tx.input [] with
    | (s1, .error e) => (s1, .error e)
    | (s1, .ok deque) =>
      match index_transaction ic tx.txid s1 tx.output 0 deque with
      | (s2, .error e) => (s2, .error e)
      | (s2, .ok (leftover, results)) =>
        match processTxs ic s2 rest (cb ++ leftover) with
        | (s3, .error e) => (s3, .error e)
        | (s3, .ok (cb', lfs, cnt)) => (s3, .ok (cb', leftover :: lfs, cnt + results.length))

/-- Record of the loop-internal values of one `index_block` run: the
per-transaction leftover (fee) range lists in transaction order, the input
deque the coinbase was processed with, the coinbase's per-output results, and
the deque left after the coinbase. -/
structure BlockGhost where
  leftovers : List (List Range)
  coinbaseDeque : List Range
  coinbaseResults : List OutputResult
  coinbaseFinal : List Range
deriving DecidableEq, Repr

/-- The final writes of `index_block` (lines 245–248): store the block hash
at the current height, advance the height, and add the block's traversed
outputs to the updater's counter. -/
def finishBlock (s : S) (block : Block) (cnt : Nat) : S :=
  { s with
    heightToBlockHash := insertA s.heightToBlockHash s.height block.block_hash,
    height := s.height + 1,
    outputs_traversed := s.outputs_traversed + cnt }

/-- The initial coinbase input deque of a block (lines 194–200): the subsidy
range `[start, start + subsidy)` of the current height when the subsidy is
positive, else empty. -/
def cbInit (env : Env) (s : S) : List Range :=
  if 0 < env.subsidy s.height then
    [(env.startingOrdinal s.height, env.startingOrdinal s.height + env.subsidy s.height)]
  else []

/-- The body of `index_block` after the reorg check (lines 194–255): seed the
coinbase input deque with the subsidy range when the subsidy is positive,
process the non-coinbase transactions collecting fees, then process the
coinbase (transaction 0) last with the fee deque, and finally record the
block hash and advance the height. -/
def indexBlockBody (env : Env) (block : Block) (s : S) (rg : Bool) :
    Bool × S × Except Err (Bool × BlockGhost) :=
  match processTxs env.isCommon s (block.txdata.drop 1) (cbInit env s) with
  | (s1, .error e) => (rg, s1, .error e)
  | (s1, .ok (cb, lfs, cnt)) =>
    match block.txdata.head? with
    | none => (rg, finishBlock s1 block cnt, .ok (false, ⟨lfs, cb, [], cb⟩))
    | some tx0 =>
      match index_transaction env.isCommon tx0.txid s1 tx0.output 0 cb with
      | (s2, .error e) => (rg, s2, .error e)
      | (s2, .ok (final, results)) =>
        (rg, finishBlock s2 block (cnt + results.length), .ok (false, ⟨lfs, cb, results, final⟩))

/-- `Updater::index_block` (lines 159–256): fetch the block at the current
height (none means done); for height > 0 read the previous block hash —
a missing row is an `unwrap()` panic, modelled as the `panicUnwrap` error —
and on a mismatch with the header's `prev_blockhash` set the process-visible
reorged flag and fail with the reorg error; otherwise run the body.  The
first component is the reorged flag after the call, the second the state
after the call (unchanged wherever the source performed no mutation). -/
def index_block (env : Env) (blocks : List Block) (s : S) (rg : Bool) :
    Bool × S × Except Err (Bool × BlockGhost) :=
  match blocks.get? s.height with
  | none => (rg, s, .ok (true, ⟨[], [], [], []⟩))
  | some block =>
    if s.height = 0 then indexBlockBody env block s rg
    else
      match lookupA s.heightToBlockHash (s.height - 1) with
      | none => (rg, s, .error .panicUnwrap)
      | some prevHash =>
        if prevHash = block.prev_blockhash then indexBlockBody env block s rg
        else (true, s, .error (.reorgDetected (s.height - 1)))

/-- `Updater::flush` (lines 38–54): write every cache entry to
`OUTPOINT_TO_ORDINAL_RANGES`, clear the cache, reset
`outputs_inserted_since_flush`. -/
def flushS (s : S) : S :=
  { s with
    outTable := s.cache.foldl (fun t kv => insertA t kv.1 kv.2) s.outTable,
    cache := [],
    outputs_inserted_since_flush := 0 }

/-- `Updater::commit` (lines 82–97): flush the cache, add the locally
accumulated `outputs_traversed` to `STATISTIC[OutputsTraversed]`, add 1 to
`STATISTIC[Commits]`, then commit the write transaction.  Note that the
source does not modify `self.outputs_traversed` here. -/
def commitS (s : S) : S :=
  let s1 := flushS s
  { s1 with
    stats :=
      increment_statistic
        (increment_statistic s1.stats .outputsTraversed s1.outputs_traversed) .commits 1 }

/-- One entry of the updater-loop trace: the iteration index `i`, whether
`index_block` reported done, and whether an intermediate commit was
performed this iteration. -/
structure IterLog where
  i : Nat
  done : Bool
  committed : Bool
deriving DecidableEq, Repr

/-- Result of the updater loop: the reorged flag, the final state (or the
propagated error), and the per-iteration trace. -/
structure LoopOut where
  reorged : Bool
  result : Except Err S
  trace : List IterLog
deriving DecidableEq, Repr

/-- The height-limit check at the top of each loop iteration
(lines 117–121). -/
def limitHit (hl : Option Nat) (height : Nat) : Bool :=
  match hl with
  | none => false
  | some l => decide (l < height)

/-- The commit after the loop (lines 148–150): commit if any blocks are
uncommitted. -/
def wrapUp (s : S) (uncommitted : Nat) : S := if 0 < uncommitted then commitS s else s

/-- The `uncommitted` counter after the iteration's block: incremented when a
block was indexed (`!done`), unchanged when done (lines 125–135). -/
def uncStep (done : Bool) (u0 : Nat) : Nat := if done then u0 else u0 + 1

/-- The intermediate-commit condition of the loop (line 137):
`uncomitted > 0 && i % 5000 == 0`, where `uncomitted` is the counter after
the iteration's block. -/
def commitCond (done : Bool) (u0 i : Nat) : Bool :=
  decide (0 < uncStep done u0) && decide (i % 5000 = 0)

/-- `Updater::update_index` (lines 99–157), driven by `fuel` in place of the
unbounded `for i in 0..` (`none` = fuel exhausted): each iteration checks the
height limit, runs `index_block`, counts the block as uncommitted when one
was indexed, performs an intermediate commit when `uncommitted > 0 && i %
5000 == 0` (resetting `uncommitted`; opening the fresh write transaction is
external), and breaks when done or interrupted (`intr` models the
process-wide interrupt counter); after the loop any uncommitted blocks are
committed.  Errors propagate without the final commit.  The trace records
each iteration's commit decision. -/
def updateLoop (env : Env) (blocks : List Block) (hl : Option Nat) (intr : Nat) :
    Nat → S → Bool → Nat → Nat → Option LoopOut
  | 0, _, _, _, _ => none
  | fuel + 1, s, rg, u0, i =>
    if limitHit hl s.height then some ⟨rg, .ok (wrapUp s u0), []⟩
    else
      match index_block env blocks s rg with
      | (rg', _, .error e) => some ⟨rg', .error e, []⟩
      | (rg', s', .ok (done, _)) =>
        let doCommit := commitCond done u0 i
        let s'' := if doCommit then commitS s' else s'
        let unc' := if doCommit then 0 else uncStep done u0
        if done || decide (0 < intr) then
          some ⟨rg', .ok (wrapUp s'' unc'), [⟨i, done, doCommit⟩]⟩
        else
          match updateLoop env blocks hl intr fuel s'' rg' unc' (i + 1) with
          | none => none
          | some out => some ⟨out.reorged, out.result, ⟨i, done, doCommit⟩ :: out.trace⟩

/-- The `uncommitted` counter after processing a prefix of the loop trace,
starting from `u0`: a non-done iteration increments it, an intermediate
commit resets it to zero. -/
def uncAfter (u0 : Nat) : List IterLog → Nat
  | [] => u0
  | log :: rest => uncAfter (if log.committed then 0 else uncStep log.done u0) rest

/-- The satpoint writes a single output's loop performs, characterized by the
assigned ranges: walking the assigned ranges in order with the cumulative
offset (sum of the widths of the ranges assigned before), each range whose
base is uncommon contributes one `ORDINAL_TO_SATPOINT` write at its base
with the satpoint at that offset; common bases contribute nothing. -/
def cumWrites (ic : Nat → Bool) (op : OutPoint) : Nat → List Range → List (Nat × List Nat)
  | _, [] => []
  | off, (b, e) :: rest =>
    (if ic b then [] else [(b, encodeSatpoint op off)]) ++ cumWrites ic op (off + (e - b)) rest

/-- Concrete environment for evaluating the model: ordinal 0 is uncommon and
every other ordinal common; every height has subsidy 50 starting at
ordinal 0. -/
def envW : Env := ⟨fun n => decide (0 < n), fun _ => 50, fun _ => 0⟩

/-- Concrete block: a single coinbase transaction claiming the subsidy. -/
def blockW7 : Block := ⟨0, 42, 0, [⟨9, [], [⟨50⟩]⟩]⟩

/-- Concrete updater-loop run on the one-block chain `[blockW7]`. -/
def outW7 : LoopOut :=
  (updateLoop envW [blockW7] none 0 3 S.empty false 0 0).getD ⟨false, .error .panicUnwrap, []⟩

/-- Concrete state whose `OUTPOINT_TO_ORDINAL_RANGES` table holds the ranges
`[100, 115)` under the outpoint `(3, 0)`. -/
def sW4 : S := { S.empty with outTable := [(encodeOutpoint ⟨3, 0⟩, encodeAssigned (100, 115))] }

/-- Concrete block: a coinbase of value 55 and one transaction spending
outpoint `(3, 0)` (15 ordinals) into a single output of value 10, leaving a
fee of 5 ordinals. -/
def blockW4 : Block := ⟨0, 42, 0, [⟨9, [], [⟨55⟩]⟩, ⟨8, [⟨⟨3, 0⟩⟩], [⟨10⟩]⟩]⟩

/-- Ghost record of the concrete `index_block` run of `blockW4` on `sW4`. -/
def gW4 : BlockGhost :=
  match (index_block envW [blockW4] sW4 false).2.2 with
  | .ok (_, g) => g
  | .error _ => ⟨[], [], [], []⟩

/-- Concrete block 0 with hash 9. -/
def blockW0 : Block := ⟨0, 9, 0, [⟨9, [], [⟨50⟩]⟩]⟩

/-- Concrete block 1 whose `prev_blockhash` 5 disagrees with `blockW0`'s
hash 9. -/
def blockW1 : Block := ⟨5, 77, 0, [⟨11, [], [⟨50⟩]⟩]⟩

/-- Concrete state at height 1 having indexed `blockW0` (hash 9 stored at
height 0). -/
def sW3 : S := { S.empty with height := 1, heightToBlockHash := [(0, 9)] }

/-- Concrete state at height 1 whose `HEIGHT_TO_BLOCK_HASH` table is empty
(no row at height 0). -/
def sW10 : S := { S.empty with height := 1 }

/-- Concrete updater state with 3 outputs traversed locally and nothing else
pending. -/
def sC6 : S := { S.empty with outputs_traversed := 3 }

/-- Concrete state whose cache holds bytes `[1, 2]` under outpoint
`(5, 1)`. -/
def sW9 : S := { S.empty with cache := [(encodeOutpoint ⟨5, 1⟩, [1, 2])] }

/-- Concrete output-loop run for the encoding witness: one output of value 3
consuming the range `[0, 3)`. -/
def rW8 : OutputResult :=
  match assignLoop (fun _ => true) ⟨7, 0⟩ 3 3 [(0, 3)] with
  | .ok r => r
  | .error _ => ⟨[], [], [], []⟩

/-- Concrete output-loop run for the satpoint witness: one output of value 10
at outpoint `(7, 0)` over the deque `[(0, 4), (7, 20)]`; ordinal 0 is
uncommon under `envW`. -/
def rW5 : OutputResult :=
  match assignLoop envW.isCommon ⟨7, 0⟩ 10 10 [(0, 4), (7, 20)] with
  | .ok r => r
  | .error _ => ⟨[], [], [], []⟩

theorem coverage_cons (r : Range) (l : List Range) :
    coverage (r :: l) = ordinalsOf r ++ coverage l := by
  simp [coverage]

theorem coverage_append (a b : List Range) :
    coverage (a ++ b) = coverage a ++ coverage b := by
  simp [coverage]

theorem sumWidths_cons (r : Range) (l : List Range) :
    sumWidths (r :: l) = (r.2 - r.1) + sumWidths l := by
  simp [sumWidths]

theorem length_coverage (l : List Range) : (coverage l).length = sumWidths l := by
  induction l with
  | nil => rfl
  | cons r rest ih =>
    simp only [coverage, List.flatMap_cons, List.length_append, ordinalsOf,
      List.length_range'] at *
    simp [sumWidths_cons, ih, sumWidths, coverage]

theorem assignLoop_ok (ic : Nat → Bool) (op : OutPoint) (v : Nat) :
    ∀ deque rem r, assignLoop ic op v rem deque = .ok r →
      sumWidths r.assigned = rem ∧
      coverage r.assigned ++ coverage r.deque = coverage deque ∧
      r.bytes = (r.assigned.map encodeAssigned).flatten ∧
      (rem ≤ v → r.satWrites = cumWrites ic op (v - rem) r.assigned) := by
  intro deque
  induction deque with
  | nil =>
    intro rem r h
    match rem with
    | 0 =>
      simp only [assignLoop, Except.ok.injEq] at h
      subst h
      simp [sumWidths, coverage, cumWrites]
    | rem + 1 => simp [assignLoop] at h
  | cons p rest ih =>
    intro rem r h
    obtain ⟨b, e⟩ := p
    match rem with
    | 0 =>
      simp only [assignLoop, Except.ok.injEq] at h
      subst h
      simp [sumWidths, coverage, cumWrites]
    | rem + 1 =>
      simp only [assignLoop] at h
      by_cases hc : e - b > rem + 1
      · rw [if_pos hc] at h
        simp only [Except.ok.injEq] at h
        subst h
        refine ⟨by simp [sumWidths], ?_, by simp, ?_⟩
        · simp only [coverage, List.flatMap_cons, List.flatMap_nil, List.append_nil, ordinalsOf]
          rw [show b + (rem + 1) - b = rem + 1 by omega, ← List.append_assoc,
            List.range'_append_1]
          congr 2
          omega
        · intro hv
          simp [cumWrites]
      · rw [if_neg hc] at h
        cases heq : assignLoop ic op v (rem + 1 - (e - b)) rest with
        | error ws => rw [heq] at h; simp at h
        | ok r' =>
          rw [heq] at h
          simp only [Except.ok.injEq] at h
          subst h
          obtain ⟨hw, hcov, hby, hsat⟩ := ih (rem + 1 - (e - b)) r' heq
          refine ⟨by simp [sumWidths_cons, hw]; omega, ?_, by simp [hby], ?_⟩
          · simp only [coverage_cons, List.append_assoc, hcov]
          · intro hv
            simp only [cumWrites, hsat (by omega)]
            congr 2
            omega

theorem assignLoop_err_iff (ic : Nat → Bool) (op : OutPoint) (v : Nat) :
    ∀ deque rem, isErr (assignLoop ic op v rem deque) = true ↔ sumWidths deque < rem := by
  intro deque
  induction deque with
  | nil =>
    intro rem
    match rem with
    | 0 => simp [assignLoop, isErr, sumWidths]
    | rem + 1 => simp [assignLoop, isErr, sumWidths]
  | cons p rest ih =>
    intro rem
    obtain ⟨b, e⟩ := p
    match rem with
    | 0 => simp [assignLoop, isErr]
    | rem + 1 =>
      simp only [assignLoop]
      by_cases hc : e - b > rem + 1
      · rw [if_pos hc]
        simp [isErr, sumWidths_cons]
        omega
      · rw [if_neg hc]
        cases heq : assignLoop ic op v (rem + 1 - (e - b)) rest with
        | error ws =>
          have h1 := (ih (rem + 1 - (e - b))).mp (by rw [heq]; rfl)
          simp [isErr, sumWidths_cons]
          omega
        | ok r =>
          have h1 : ¬ sumWidths rest < rem + 1 - (e - b) := by
            intro hlt
            have := (ih (rem + 1 - (e - b))).mpr hlt
            rw [heq] at this
            simp [isErr] at this
          simp [isErr, sumWidths_cons]
          omega

theorem assignLoop_ok_of_le (ic : Nat → Bool) (op : OutPoint) (v : Nat) (deque : List Range)
    (rem : Nat) (h : rem ≤ sumWidths deque) :
    ∃ r, assignLoop ic op v rem deque = .ok r := by
  cases heq : assignLoop ic op v rem deque with
  | error ws =>
    have := (assignLoop_err_iff ic op v deque rem).mp (by rw [heq]; rfl)
    omega
  | ok r => exact ⟨r, rfl⟩

theorem assignLoop_width_deque (ic : Nat → Bool) (op : OutPoint) (v rem : Nat)
    (deque : List Range) (r : OutputResult) (h : assignLoop ic op v rem deque = .ok r) :
    sumWidths r.assigned + sumWidths r.deque = sumWidths deque := by
  obtain ⟨-, h2, -, -⟩ := assignLoop_ok ic op v deque rem r h
  have := congrArg List.length h2
  simpa [length_coverage] using this

theorem index_transaction_cons (ic : Nat → Bool) (txid : Nat) (s : S) (o : TxOut)
    (rest : List TxOut) (vout : Nat) (deque : List Range) :
    index_transaction ic txid s (o :: rest) vout deque =
      match assignLoop ic ⟨txid, vout⟩ o.value o.value deque with
      | .error ws =>
        ({ s with satTable := ws.foldl (fun t kv => insertA t kv.1 kv.2) s.satTable },
          .error .insufficientInputs)
      | .ok r =>
        match index_transaction ic txid (stepState s txid vout r) rest (vout + 1) r.deque with
        | (s'', .error e) => (s'', .error e)
        | (s'', .ok (dq, results)) => (s'', .ok (dq, r :: results)) := rfl

theorem index_transaction_cons_err (ic : Nat → Bool) (txid : Nat) (s : S) (o : TxOut)
    (rest : List TxOut) (vout : Nat) (deque : List Range) (ws : List (Nat × List Nat))
    (ha : assignLoop ic ⟨txid, vout⟩ o.value o.value deque = .error ws) :
    index_transaction ic txid s (o :: rest) vout deque =
      ({ s with satTable := ws.foldl (fun t kv => insertA t kv.1 kv.2) s.satTable },
        .error .insufficientInputs) := by
  rw [index_transaction_cons, ha]

theorem index_transaction_cons_ok (ic : Nat → Bool) (txid : Nat) (s : S) (o : TxOut)
    (rest : List TxOut) (vout : Nat) (deque : List Range) (r : OutputResult)
    (ha : assignLoop ic ⟨txid, vout⟩ o.value o.value deque = .ok r) :
    index_transaction ic txid s (o :: rest) vout deque =
      match index_transaction ic txid (stepState s txid vout r) rest (vout + 1) r.deque with
      | (s'', .error e) => (s'', .error e)
      | (s'', .ok (dq, results)) => (s'', .ok (dq, r :: results)) := by
  rw [index_transaction_cons, ha]

theorem index_transaction_ok (ic : Nat → Bool) (txid : Nat) :
    ∀ outs s vout deque s' dq results,
      index_transaction ic txid s outs vout deque = (s', .ok (dq, results)) →
      results.length = outs.length ∧
      (∀ j o r, outs.get? j = some o → results.get? j = some r →
        sumWidths r.assigned = o.value ∧
        r.bytes = (r.assigned.map encodeAssigned).flatten) ∧
      coverage ((results.map fun r => r.assigned).flatten ++ dq) = coverage deque := by
  intro outs
  induction outs with
  | nil =>
    intro s vout deque s' dq results h
    simp only [index_transaction, Prod.mk.injEq, Except.ok.injEq] at h
    obtain ⟨-, hd, hr⟩ := h
    subst hd; subst hr
    simp
  | cons o rest ih =>
    intro s vout deque s' dq results h
    cases ha : assignLoop ic ⟨txid, vout⟩ o.value o.value deque with
    | error ws => rw [index_transaction_cons_err ic txid s o rest vout deque ws ha] at h; simp at h
    | ok r =>
      rw [index_transaction_cons_ok ic txid s o rest vout deque r ha] at h
      cases hrec : index_transaction ic txid (stepState s txid vout r) rest (vout + 1)
          r.deque with
      | mk s2 res2 =>
        rw [hrec] at h
        cases res2 with
        | error e => simp at h
        | ok pair =>
          obtain ⟨dq2, results2⟩ := pair
          simp only [Prod.mk.injEq, Except.ok.injEq] at h
          obtain ⟨hs2, hdq, hres⟩ := h
          subst hs2; subst hdq; subst hres
          obtain ⟨hlen, hget, hcov⟩ := ih _ (vout + 1) r.deque _ _ _ hrec
          obtain ⟨hw, hcov1, hby, -⟩ := assignLoop_ok ic ⟨txid, vout⟩ o.value deque o.value r ha
          refine ⟨by simp [hlen], ?_, ?_⟩
          · intro j oo rr hjo hjr
            match j with
            | 0 =>
              simp only [List.get?_cons_zero, Option.some.injEq] at hjo hjr
              subst hjo; subst hjr
              exact ⟨hw, hby⟩
            | j + 1 =>
              simp only [List.get?_cons_succ] at hjo hjr
              exact hget j oo rr hjo hjr
          · rw [List.map_cons, List.flatten_cons, List.append_assoc, coverage_append, hcov]
            exact hcov1

theorem index_transaction_err_iff (ic : Nat → Bool) (txid : Nat) :
    ∀ outs s vout deque,
      isErr (index_transaction ic txid s outs vout deque).2 = true ↔
        sumWidths deque < sumValues outs := by
  intro outs
  induction outs with
  | nil =>
    intro s vout deque
    simp [index_transaction, isErr, sumValues]
  | cons o rest ih =>
    intro s vout deque
    cases ha : assignLoop ic ⟨txid, vout⟩ o.value o.value deque with
    | error ws =>
      have h1 := (assignLoop_err_iff ic ⟨txid, vout⟩ o.value deque o.value).mp
        (by rw [ha]; rfl)
      rw [index_transaction_cons_err ic txid s o rest vout deque ws ha]
      simp [isErr, sumValues]
      omega
    | ok r =>
      rw [index_transaction_cons_ok ic txid s o rest vout deque r ha]
      have hv : ¬ sumWidths deque < o.value := by
        intro hlt
        have := (assignLoop_err_iff ic ⟨txid, vout⟩ o.value deque o.value).mpr hlt
        rw [ha] at this
        simp [isErr] at this
      have hwd := assignLoop_width_deque ic ⟨txid, vout⟩ o.value o.value deque r ha
      obtain ⟨hw, -, -, -⟩ := assignLoop_ok ic ⟨txid, vout⟩ o.value deque o.value r ha
      cases hrec : index_transaction ic txid (stepState s txid vout r) rest (vout + 1)
          r.deque with
      | mk s2 res2 =>
        have hihs := ih (stepState s txid vout r) (vout + 1) r.deque
        rw [hrec] at hihs
        simp only [sumValues] at hihs
        cases res2 with
        | error e =>
          simp only [isErr] at hihs
          simp at hihs
          simp [isErr, sumValues]
          omega
        | ok pair =>
          obtain ⟨dq2, results2⟩ := pair
          simp only [isErr] at hihs
          simp at hihs
          simp [isErr, sumValues]
          omega

theorem index_transaction_err_val (ic : Nat → Bool) (txid : Nat) :
    ∀ outs s vout deque e, (index_transaction ic txid s outs vout deque).2 = .error e →
      e = .insufficientInputs := by
  intro outs
  induction outs with
  | nil => intro s vout deque e h; simp [index_transaction] at h
  | cons o rest ih =>
    intro s vout deque e h
    cases ha : assignLoop ic ⟨txid, vout⟩ o.value o.value deque with
    | error ws =>
      rw [index_transaction_cons_err ic txid s o rest vout deque ws ha] at h
      simp only [Except.error.injEq] at h
      exact h.symm
    | ok r =>
      rw [index_transaction_cons_ok ic txid s o rest vout deque r ha] at h
      cases hrec : index_transaction ic txid (stepState s txid vout r) rest (vout + 1)
          r.deque with
      | mk s2 res2 =>
        rw [hrec] at h
        cases res2 with
        | error e2 =>
          simp only [Except.error.injEq] at h
          subst h
          exact ih (stepState s txid vout r) (vout + 1) r.deque e2 (by rw [hrec])
        | ok pair => obtain ⟨a, b⟩ := pair; simp at h

theorem get_and_remove_cases (s : S) (op : OutPoint) :
    (∀ v, lookupA s.cache (encodeOutpoint op) = some v →
      get_and_remove s op =
        ({ s with cache := eraseA s.cache (encodeOutpoint op),
                  outputs_cached := s.outputs_cached + 1 }, .ok v)) ∧
    (∀ v, lookupA s.cache (encodeOutpoint op) = none →
      lookupA s.outTable (encodeOutpoint op) = some v →
      get_and_remove s op = ({ s with outTable := eraseA s.outTable (encodeOutpoint op) }, .ok v)) ∧
    (lookupA s.cache (encodeOutpoint op) = none →
      lookupA s.outTable (encodeOutpoint op) = none →
      get_and_remove s op = (s, .error (.missingOutpoint (encodeOutpoint op)))) := by
  refine ⟨?_, ?_, ?_⟩
  · intro v hc
    simp only [get_and_remove]
    rw [hc]
  · intro v hc ht
    simp only [get_and_remove]
    rw [hc, ht]
  · intro hc ht
    simp only [get_and_remove]
    rw [hc, ht]

theorem get_and_remove_err_val (s : S) (op : OutPoint) (s' : S) (e : Err)
    (h : get_and_remove s op = (s', .error e)) : e = .missingOutpoint (encodeOutpoint op) := by
  simp only [get_and_remove] at h
  cases hc : lookupA s.cache (encodeOutpoint op) with
  | some v => rw [hc] at h; simp at h
  | none =>
    rw [hc] at h
    cases ht : lookupA s.outTable (encodeOutpoint op) with
    | some v => rw [ht] at h; simp at h
    | none =>
      rw [ht] at h
      simp only [Prod.mk.injEq, Except.error.injEq] at h
      exact h.2.symm

theorem buildInputDeque_err_val :
    ∀ (ins : List TxIn) (s : S) (acc : List Range) (s' : S) (e : Err),
      buildInputDeque s ins acc = (s', .error e) → ∃ k, e = .missingOutpoint k := by
  intro ins
  induction ins with
  | nil => intro s acc s' e h; simp [buildInputDeque] at h
  | cons i rest ih =>
    intro s acc s' e h
    simp only [buildInputDeque] at h
    cases hg : get_and_remove s i.previous_output with
    | mk sg resg =>
      rw [hg] at h
      cases resg with
      | error eg =>
        simp only [Prod.mk.injEq, Except.error.injEq] at h
        obtain ⟨-, he⟩ := h
        subst he
        exact ⟨_, get_and_remove_err_val s i.previous_output sg eg hg⟩
      | ok bytes => exact ih sg _ s' e h

theorem processTxs_cons_build_err (ic : Nat → Bool) (s : S) (tx : Transaction)
    (rest : List Transaction) (cb : List Range) (s1 : S) (e : Err)
    (hb : buildInputDeque s tx.input [] = (s1, .error e)) :
    processTxs ic s (tx :: rest) cb = (s1, .error e) := by
  simp only [processTxs]
  rw [hb]

theorem processTxs_cons_build_ok (ic : Nat → Bool) (s : S) (tx : Transaction)
    (rest : List Transaction) (cb : List Range) (s1 : S) (deque : List Range)
    (hb : buildInputDeque s tx.input [] = (s1, .ok deque)) :
    processTxs ic s (tx :: rest) cb =
      match index_transaction ic tx.txid s1 tx.output 0 deque with
      | (s2, .error e) => (s2, .error e)
      | (s2, .ok (leftover, results)) =>
        match processTxs ic s2 rest (cb ++ leftover) with
        | (s3, .error e) => (s3, .error e)
        | (s3, .ok (cb2, lfs, cnt)) => (s3, .ok (cb2, leftover :: lfs, cnt + results.length)) := by
  simp only [processTxs]
  rw [hb]

theorem processTxs_cons_tx_err (ic : Nat → Bool) (s : S) (tx : Transaction)
    (rest : List Transaction) (cb : List Range) (s1 : S) (deque : List Range) (s2 : S) (e : Err)
    (hb : buildInputDeque s tx.input [] = (s1, .ok deque))
    (hix : index_transaction ic tx.txid s1 tx.output 0 deque = (s2, .error e)) :
    processTxs ic s (tx :: rest) cb = (s2, .error e) := by
  rw [processTxs_cons_build_ok ic s tx rest cb s1 deque hb, hix]

theorem processTxs_cons_tx_ok (ic : Nat → Bool) (s : S) (tx : Transaction)
    (rest : List Transaction) (cb : List Range) (s1 : S) (deque : List Range) (s2 : S)
    (leftover : List Range) (results : List OutputResult)
    (hb : buildInputDeque s tx.input [] = (s1, .ok deque))
    (hix : index_transaction ic tx.txid s1 tx.output 0 deque = (s2, .ok (leftover, results))) :
    processTxs ic s (tx :: rest) cb =
      match processTxs ic s2 rest (cb ++ leftover) with
      | (s3, .error e) => (s3, .error e)
      | (s3, .ok (cb2, lfs, cnt)) => (s3, .ok (cb2, leftover :: lfs, cnt + results.length)) := by
  rw [processTxs_cons_build_ok ic s tx rest cb s1 deque hb, hix]

theorem processTxs_ok (ic : Nat → Bool) :
    ∀ (txs : List Transaction) (s : S) (cb : List Range) (s' : S) (cb' : List Range)
      (lfs : List (List Range)) (cnt : Nat),
      processTxs ic s txs cb = (s', .ok (cb', lfs, cnt)) → cb' = cb ++ lfs.flatten := by
  intro txs
  induction txs with
  | nil =>
    intro s cb s' cb' lfs cnt h
    simp only [processTxs, Prod.mk.injEq, Except.ok.injEq] at h
    obtain ⟨-, hcb, hlfs, -⟩ := h
    subst hcb; subst hlfs
    simp
  | cons tx rest ih =>
    intro s cb s' cb' lfs cnt h
    cases hb : buildInputDeque s tx.input [] with
    | mk s1 res1 =>
      cases res1 with
      | error e => rw [processTxs_cons_build_err ic s tx rest cb s1 e hb] at h; simp at h
      | ok deque =>
        cases hix : index_transaction ic tx.txid s1 tx.output 0 deque with
        | mk s2 res2 =>
          cases res2 with
          | error e =>
            rw [processTxs_cons_tx_err ic s tx rest cb s1 deque s2 e hb hix] at h
            simp at h
          | ok pair =>
            obtain ⟨leftover, results⟩ := pair
            rw [processTxs_cons_tx_ok ic s tx rest cb s1 deque s2 leftover results hb hix] at h
            cases hp : processTxs ic s2 rest (cb ++ leftover) with
            | mk s3 res3 =>
              rw [hp] at h
              cases res3 with
              | error e => simp at h
              | ok triple =>
                obtain ⟨cb2, lfs2, cnt2⟩ := triple
                simp only [Prod.mk.injEq, Except.ok.injEq] at h
                obtain ⟨-, hcb, hlfs, -⟩ := h
                subst hcb; subst hlfs
                rw [ih s2 (cb ++ leftover) s3 cb2 lfs2 cnt2 hp]
                simp

theorem processTxs_err_val (ic : Nat → Bool) :
    ∀ (txs : List Transaction) (s : S) (cb : List Range) (s' : S) (e : Err),
      processTxs ic s txs cb = (s', .error e) →
      e = .insufficientInputs ∨ ∃ k, e = .missingOutpoint k := by
  intro txs
  induction txs with
  | nil => intro s cb s' e h; simp [processTxs] at h
  | cons tx rest ih =>
    intro s cb s' e h
    cases hb : buildInputDeque s tx.input [] with
    | mk s1 res1 =>
      cases res1 with
      | error e1 =>
        rw [processTxs_cons_build_err ic s tx rest cb s1 e1 hb] at h
        simp only [Prod.mk.injEq, Except.error.injEq] at h
        obtain ⟨-, he⟩ := h
        subst he
        exact .inr (buildInputDeque_err_val tx.input s [] s1 e1 hb)
      | ok deque =>
        cases hix : index_transaction ic tx.txid s1 tx.output 0 deque with
        | mk s2 res2 =>
          cases res2 with
          | error e2 =>
            rw [processTxs_cons_tx_err ic s tx rest cb s1 deque s2 e2 hb hix] at h
            simp only [Prod.mk.injEq, Except.error.injEq] at h
            obtain ⟨-, he⟩ := h
            subst he
            exact .inl (index_transaction_err_val ic tx.txid tx.output s1 0 deque e2
              (by rw [hix]))
          | ok pair =>
            obtain ⟨leftover, results⟩ := pair
            rw [processTxs_cons_tx_ok ic s tx rest cb s1 deque s2 leftover results hb hix] at h
            cases hp : processTxs ic s2 rest (cb ++ leftover) with
            | mk s3 res3 =>
              rw [hp] at h
              cases res3 with
              | error e3 =>
                simp only [Prod.mk.injEq, Except.error.injEq] at h
                obtain ⟨-, he⟩ := h
                subst he
                exact ih s2 (cb ++ leftover) s3 e3 hp
              | ok triple => obtain ⟨a, b, c⟩ := triple; simp at h

theorem indexBlockBody_processTxs_err (env : Env) (block : Block) (s : S) (rg : Bool)
    (s1 : S) (e : Err)
    (hp : processTxs env.isCommon s (block.txdata.drop 1) (cbInit env s) = (s1, .error e)) :
    indexBlockBody env block s rg = (rg, s1, .error e) := by
  simp only [indexBlockBody]
  rw [hp]

theorem indexBlockBody_ok_noCb (env : Env) (block : Block) (s : S) (rg : Bool)
    (s1 : S) (cb : List Range) (lfs : List (List Range)) (cnt : Nat)
    (hp : processTxs env.isCommon s (block.txdata.drop 1) (cbInit env s) = (s1, .ok (cb, lfs, cnt)))
    (hh : block.txdata.head? = none) :
    indexBlockBody env block s rg = (rg, finishBlock s1 block cnt, .ok (false, ⟨lfs, cb, [], cb⟩)) := by
  simp only [indexBlockBody]
  rw [hp, hh]

theorem indexBlockBody_ok_cb (env : Env) (block : Block) (s : S) (rg : Bool)
    (s1 : S) (cb : List Range) (lfs : List (List Range)) (cnt : Nat) (tx0 : Transaction)
    (hp : processTxs env.isCommon s (block.txdata.drop 1) (cbInit env s) = (s1, .ok (cb, lfs, cnt)))
    (hh : block.txdata.head? = some tx0) :
    indexBlockBody env block s rg =
      match index_transaction env.isCommon tx0.txid s1 tx0.output 0 cb with
      | (s2, .error e) => (rg, s2, .error e)
      | (s2, .ok (final, results)) =>
        (rg, finishBlock s2 block (cnt + results.length), .ok (false, ⟨lfs, cb, results, final⟩)) := by
  simp only [indexBlockBody]
  rw [hp, hh]

theorem indexBlockBody_err_val (env : Env) (block : Block) (s : S) (rg : Bool)
    (rg' : Bool) (s' : S) (e : Err)
    (h : indexBlockBody env block s rg = (rg', s', .error e)) :
    e = .insufficientInputs ∨ ∃ k, e = .missingOutpoint k := by
  cases hp : processTxs env.isCommon s (block.txdata.drop 1) (cbInit env s) with
  | mk s1 res1 =>
    cases res1 with
    | error e1 =>
      rw [indexBlockBody_processTxs_err env block s rg s1 e1 hp] at h
      simp only [Prod.mk.injEq, Except.error.injEq] at h
      obtain ⟨-, -, he⟩ := h
      subst he
      exact processTxs_err_val env.isCommon (block.txdata.drop 1) s (cbInit env s) s1 e1 hp
    | ok triple =>
      obtain ⟨cb, lfs, cnt⟩ := triple
      cases hh : block.txdata.head? with
      | none =>
        rw [indexBlockBody_ok_noCb env block s rg s1 cb lfs cnt hp hh] at h
        simp at h
      | some tx0 =>
        rw [indexBlockBody_ok_cb env block s rg s1 cb lfs cnt tx0 hp hh] at h
        cases hix : index_transaction env.isCommon tx0.txid s1 tx0.output 0 cb with
        | mk s2 res2 =>
          rw [hix] at h
          cases res2 with
          | error e2 =>
            simp only [Prod.mk.injEq, Except.error.injEq] at h
            obtain ⟨-, -, he⟩ := h
            subst he
            exact .inl (index_transaction_err_val env.isCommon tx0.txid tx0.output s1 0 cb e2
              (by rw [hix]))
          | ok pair => obtain ⟨a, b⟩ := pair; simp at h

theorem index_block_none (env : Env) (blocks : List Block) (s : S) (rg : Bool)
    (h : blocks.get? s.height = none) :
    index_block env blocks s rg = (rg, s, .ok (true, ⟨[], [], [], []⟩)) := by
  simp only [index_block]
  rw [h]

theorem index_block_some (env : Env) (blocks : List Block) (s : S) (rg : Bool) (block : Block)
    (hb : blocks.get? s.height = some block) :
    index_block env blocks s rg =
      if s.height = 0 then indexBlockBody env block s rg
      else
        match lookupA s.heightToBlockHash (s.height - 1) with
        | none => (rg, s, .error .panicUnwrap)
        | some prevHash =>
          if prevHash = block.prev_blockhash then indexBlockBody env block s rg
          else (true, s, .error (.reorgDetected (s.height - 1))) := by
  simp only [index_block]
  rw [hb]

theorem index_block_zero (env : Env) (blocks : List Block) (s : S) (rg : Bool) (block : Block)
    (hb : blocks.get? s.height = some block) (h0 : s.height = 0) :
    index_block env blocks s rg = indexBlockBody env block s rg := by
  rw [index_block_some env blocks s rg block hb, if_pos h0]

theorem index_block_panic_eq (env : Env) (blocks : List Block) (s : S) (rg : Bool) (block : Block)
    (hb : blocks.get? s.height = some block) (h0 : s.height ≠ 0)
    (hl : lookupA s.heightToBlockHash (s.height - 1) = none) :
    index_block env blocks s rg = (rg, s, .error .panicUnwrap) := by
  rw [index_block_some env blocks s rg block hb, if_neg h0, hl]

theorem index_block_link (env : Env) (blocks : List Block) (s : S) (rg : Bool) (block : Block)
    (ph : Nat) (hb : blocks.get? s.height = some block) (h0 : s.height ≠ 0)
    (hl : lookupA s.heightToBlockHash (s.height - 1) = some ph)
    (he : ph = block.prev_blockhash) :
    index_block env blocks s rg = indexBlockBody env block s rg := by
  rw [index_block_some env blocks s rg block hb, if_neg h0, hl]
  show (if ph = block.prev_blockhash then indexBlockBody env block s rg
      else (true, s, .error (.reorgDetected (s.height - 1)))) = indexBlockBody env block s rg
  rw [if_pos he]

theorem index_block_reorg_eq (env : Env) (blocks : List Block) (s : S) (rg : Bool) (block : Block)
    (ph : Nat) (hb : blocks.get? s.height = some block) (h0 : s.height ≠ 0)
    (hl : lookupA s.heightToBlockHash (s.height - 1) = some ph)
    (hne : ph ≠ block.prev_blockhash) :
    index_block env blocks s rg = (true, s, .error (.reorgDetected (s.height - 1))) := by
  rw [index_block_some env blocks s rg block hb, if_neg h0, hl]
  show (if ph = block.prev_blockhash then indexBlockBody env block s rg
      else (true, s, .error (.reorgDetected (s.height - 1)))) =
    (true, s, .error (.reorgDetected (s.height - 1)))
  rw [if_neg hne]

theorem commitCond_iff (done : Bool) (u0 i : Nat) :
    commitCond done u0 i = true ↔ 0 < uncStep done u0 ∧ i % 5000 = 0 := by
  simp [commitCond]

theorem updateLoop_limit (env : Env) (blocks : List Block) (hl : Option Nat) (intr : Nat)
    (fuel : Nat) (s : S) (rg : Bool) (u0 i : Nat) (h : limitHit hl s.height = true) :
    updateLoop env blocks hl intr (fuel + 1) s rg u0 i = some ⟨rg, .ok (wrapUp s u0), []⟩ := by
  simp only [updateLoop]
  rw [if_pos h]

theorem updateLoop_err (env : Env) (blocks : List Block) (hl : Option Nat) (intr : Nat)
    (fuel : Nat) (s : S) (rg : Bool) (u0 i : Nat) (rg' : Bool) (s' : S) (e : Err)
    (h : limitHit hl s.height = false)
    (hib : index_block env blocks s rg = (rg', s', .error e)) :
    updateLoop env blocks hl intr (fuel + 1) s rg u0 i = some ⟨rg', .error e, []⟩ := by
  simp only [updateLoop]
  rw [if_neg (by simp [h]), hib]

theorem updateLoop_step (env : Env) (blocks : List Block) (hl : Option Nat) (intr : Nat)
    (fuel : Nat) (s : S) (rg : Bool) (u0 i : Nat) (rg' : Bool) (s' : S) (done : Bool)
    (g : BlockGhost) (h : limitHit hl s.height = false)
    (hib : index_block env blocks s rg = (rg', s', .ok (done, g))) :
    updateLoop env blocks hl intr (fuel + 1) s rg u0 i =
      (if done || decide (0 < intr) then
        some ⟨rg', .ok (wrapUp (if commitCond done u0 i then commitS s' else s')
          (if commitCond done u0 i then 0 else uncStep done u0)),
          [⟨i, done, commitCond done u0 i⟩]⟩
      else
        match updateLoop env blocks hl intr fuel
            (if commitCond done u0 i then commitS s' else s') rg'
            (if commitCond done u0 i then 0 else uncStep done u0) (i + 1) with
        | none => none
        | some out => some ⟨out.reorged, out.result, ⟨i, done, commitCond done u0 i⟩ :: out.trace⟩) := by
  simp only [updateLoop]
  rw [if_neg (by simp [h]), hib]

theorem updateLoop_trace_spec (env : Env) (blocks : List Block) (hl : Option Nat) (intr : Nat) :
    ∀ (fuel : Nat) (s : S) (rg : Bool) (u0 i : Nat) (out : LoopOut),
      updateLoop env blocks hl intr fuel s rg u0 i = some out →
      ∀ (j : Nat) (log : IterLog), out.trace.get? j = some log →
        log.i = i + j ∧
        (log.committed = true ↔
          0 < uncStep log.done (uncAfter u0 (out.trace.take j)) ∧ (i + j) % 5000 = 0) := by
  intro fuel
  induction fuel with
  | zero => intro s rg u0 i out h; simp [updateLoop] at h
  | succ fuel ih =>
    intro s rg u0 i out h j log hj
    cases hlim : limitHit hl s.height with
    | true =>
      rw [updateLoop_limit env blocks hl intr fuel s rg u0 i hlim] at h
      simp only [Option.some.injEq] at h
      subst h
      simp at hj
    | false =>
      cases hib : index_block env blocks s rg with
      | mk rg' rest =>
        cases rest with
        | mk s' res =>
          cases res with
          | error e =>
            rw [updateLoop_err env blocks hl intr fuel s rg u0 i rg' s' e hlim hib] at h
            simp only [Option.some.injEq] at h
            subst h
            simp at hj
          | ok pair =>
            obtain ⟨done, g⟩ := pair
            rw [updateLoop_step env blocks hl intr fuel s rg u0 i rg' s' done g hlim hib] at h
            cases hbr : (done || decide (0 < intr)) with
            | true =>
              rw [hbr, if_pos rfl] at h
              simp only [Option.some.injEq] at h
              subst h
              match j with
              | 0 =>
                simp only [List.get?_cons_zero, Option.some.injEq] at hj
                subst hj
                refine ⟨by simp, ?_⟩
                simp only [List.take_zero, uncAfter]
                exact commitCond_iff done u0 i
              | j + 1 => simp at hj
            | false =>
              rw [hbr] at h
              simp only [Bool.false_eq_true, if_false] at h
              cases hrec : updateLoop env blocks hl intr fuel
                  (if commitCond done u0 i then commitS s' else s') rg'
                  (if commitCond done u0 i then 0 else uncStep done u0) (i + 1) with
              | none => rw [hrec] at h; simp at h
              | some out' =>
                rw [hrec] at h
                simp only [Option.some.injEq] at h
                subst h
                match j with
                | 0 =>
                  simp only [List.get?_cons_zero, Option.some.injEq] at hj
                  subst hj
                  refine ⟨by simp, ?_⟩
                  simp only [List.take_zero, uncAfter]
                  exact commitCond_iff done u0 i
                | j + 1 =>
                  simp only [List.get?_cons_succ] at hj
                  obtain ⟨h1, h2⟩ := ih _ rg' _ (i + 1) out' hrec j log hj
                  refine ⟨by omega, ?_⟩
                  rw [h2]
                  have hstep : uncAfter u0 ((⟨i, done, commitCond done u0 i⟩ :: out'.trace).take (j + 1)) =
                      uncAfter (if commitCond done u0 i then 0 else uncStep done u0)
                        (out'.trace.take j) := by
                    simp [uncAfter]
                  rw [hstep]
                  constructor
                  · intro hx; exact ⟨hx.1, by omega⟩
                  · intro hx; exact ⟨hx.1, by omega⟩

theorem cbInit_pos (env : Env) (s : S) (hs : 0 < env.subsidy s.height) :
    cbInit env s =
      [(env.startingOrdinal s.height, env.startingOrdinal s.height + env.subsidy s.height)] := by
  simp [cbInit, hs]

theorem indexBlockBody_not_panic (env : Env) (block : Block) (s : S) (rg : Bool) :
    (indexBlockBody env block s rg).2.2 ≠ .error Err.panicUnwrap := by
  intro h
  cases hB : indexBlockBody env block s rg with
  | mk rg2 rest =>
    cases rest with
    | mk s2 res =>
      rw [hB] at h
      simp only at h
      subst h
      have := indexBlockBody_err_val env block s rg rg2 s2 .panicUnwrap hB
      cases this with
      | inl h1 => cases h1
      | inr h2 => obtain ⟨k, hk⟩ := h2; cases hk

theorem cumWrites_uncommon (ic : Nat → Bool) (op : OutPoint) :
    ∀ (l : List Range) (off : Nat) (p : Nat × List Nat),
      p ∈ cumWrites ic op off l → ic p.1 = false := by
  intro l
  induction l with
  | nil => intro off p hp; simp [cumWrites] at hp
  | cons r rest ih =>
    intro off p hp
    obtain ⟨b, e⟩ := r
    simp only [cumWrites, List.mem_append] at hp
    cases hp with
    | inl h1 =>
      by_cases hb : ic b = true
      · rw [if_pos hb] at h1; simp at h1
      · rw [if_neg hb] at h1
        simp only [List.mem_singleton] at h1
        subst h1
        simpa using hb
    | inr h2 => exact ih _ p h2

/-- Claim C1: for every transaction whose input deque has total width at
least the sum of the output values, `index_transaction` succeeds, each
output's buffer is the concatenated 11-byte encodings of assigned ranges
whose widths sum exactly to that output's value, and the ordinals covered by
all assigned ranges followed by the leftover deque are exactly (as a list,
so in deque order, with no duplication and no loss) the ordinals covered by
the input deque — the leftover deque being the unconsumed suffix (the fee).
Splits are internal to `assignLoop` (a range wider than the remaining value
is split into `(b, b + remaining)` assigned and `(b + remaining, e)` pushed
to the front); the coverage equation is exactly the adjacency of the two
pieces.  Well-formedness of the deque (`base ≤ end`) is assumed so that the
`Nat` model coincides with u64 arithmetic. -/
theorem index_transaction_partition (ic : Nat → Bool) (txid : Nat) (s : S) (outs : List TxOut)
    (deque : List Range) (_hwf : ∀ r ∈ deque, r.1 ≤ r.2)
    (h : sumValues outs ≤ sumWidths deque) :
    ∃ s' dq results, index_transaction ic txid s outs 0 deque = (s', .ok (dq, results)) ∧
      results.length = outs.length ∧
      (∀ j o r, outs.get? j = some o → results.get? j = some r →
        sumWidths r.assigned = o.value ∧
        r.bytes = (r.assigned.map encodeAssigned).flatten) ∧
      coverage ((results.map fun r => r.assigned).flatten ++ dq) = coverage deque := by
  cases hres : index_transaction ic txid s outs 0 deque with
  | mk s' res =>
    cases res with
    | error e =>
      have hx := (index_transaction_err_iff ic txid outs s 0 deque).mp (by rw [hres]; rfl)
      omega
    | ok pair =>
      obtain ⟨dq, results⟩ := pair
      obtain ⟨h1, h2, h3⟩ := index_transaction_ok ic txid outs s 0 deque s' dq results hres
      exact ⟨s', dq, results, rfl, h1, h2, h3⟩

/-- Witness for C1: a transaction with outputs of values 30 and 20 over the
deque `[(0, 50)]`. -/
theorem index_transaction_partition_witness :
    (∀ r ∈ [((0 : Nat), (50 : Nat))], r.1 ≤ r.2) ∧
    sumValues [(⟨30⟩ : TxOut), ⟨20⟩] ≤ sumWidths [(0, 50)] ∧
    (∃ s' dq results,
      index_transaction (fun _ => true) 7 S.empty [(⟨30⟩ : TxOut), ⟨20⟩] 0 [(0, 50)] =
        (s', .ok (dq, results)) ∧
      results.length = [(⟨30⟩ : TxOut), ⟨20⟩].length ∧
      (∀ j o r, [(⟨30⟩ : TxOut), ⟨20⟩].get? j = some o → results.get? j = some r →
        sumWidths r.assigned = o.value ∧
        r.bytes = (r.assigned.map encodeAssigned).flatten) ∧
      coverage ((results.map fun r => r.assigned).flatten ++ dq) = coverage [(0, 50)]) :=
  ⟨by decide, by decide,
    index_transaction_partition (fun _ => true) 7 S.empty [⟨30⟩, ⟨20⟩] [(0, 50)]
      (by decide) (by decide)⟩

/-- Claim C2: `index_transaction` fails with InsufficientInputs exactly when
the total width of the input deque is strictly less than the sum of the
transaction's output values (equivalently, the deque runs empty while some
output's remaining value is positive).  Well-formedness of the deque is
assumed so that the `Nat` model coincides with u64 arithmetic. -/
theorem index_transaction_insufficient_iff (ic : Nat → Bool) (txid : Nat) (s : S)
    (outs : List TxOut) (deque : List Range) (_hwf : ∀ r ∈ deque, r.1 ≤ r.2) :
    (index_transaction ic txid s outs 0 deque).2 = .error .insufficientInputs ↔
      sumWidths deque < sumValues outs := by
  constructor
  · intro h
    exact (index_transaction_err_iff ic txid outs s 0 deque).mp (by rw [h]; rfl)
  · intro h
    have hisErr := (index_transaction_err_iff ic txid outs s 0 deque).mpr h
    cases hres : (index_transaction ic txid s outs 0 deque).2 with
    | error e =>
      have he := index_transaction_err_val ic txid outs s 0 deque e hres
      rw [he]
    | ok p =>
      rw [hres] at hisErr
      simp [isErr] at hisErr

/-- Witness for C2: one output of value 30 over the deque `[(0, 10)]` of
width 10 fails; the iff is applied at that input. -/
theorem index_transaction_insufficient_iff_witness :
    (∀ r ∈ [((0 : Nat), (10 : Nat))], r.1 ≤ r.2) ∧
    ((index_transaction (fun _ => true) 7 S.empty [(⟨30⟩ : TxOut)] 0 [(0, 10)]).2 =
        .error .insufficientInputs ↔
      sumWidths [(0, 10)] < sumValues [(⟨30⟩ : TxOut)]) :=
  ⟨by decide,
    index_transaction_insufficient_iff (fun _ => true) 7 S.empty [⟨30⟩] [(0, 10)] (by decide)⟩

/-- Claim C3: for a block at height > 0 whose header's `prev_blockhash`
differs from the stored hash at the previous height, `index_block` sets the
reorged flag, returns the reorg error naming the previous height, and leaves
the state (all tables, the cache, and the height) exactly as it was. -/
theorem index_block_reorg (env : Env) (blocks : List Block) (s : S) (rg : Bool) (block : Block)
    (ph : Nat) (hb : blocks.get? s.height = some block) (h0 : 0 < s.height)
    (hl : lookupA s.heightToBlockHash (s.height - 1) = some ph)
    (hne : ph ≠ block.prev_blockhash) :
    index_block env blocks s rg = (true, s, .error (.reorgDetected (s.height - 1))) :=
  index_block_reorg_eq env blocks s rg block ph hb (by omega) hl hne

/-- Witness for C3: replaying a block 1 whose `prev_blockhash` (5) disagrees
with the stored hash of block 0 (9). -/
theorem index_block_reorg_witness :
    [blockW0, blockW1].get? sW3.height = some blockW1 ∧ 0 < sW3.height ∧
    lookupA sW3.heightToBlockHash (sW3.height - 1) = some 9 ∧ (9 : Nat) ≠ blockW1.prev_blockhash ∧
    index_block envW [blockW0, blockW1] sW3 false =
      (true, sW3, .error (.reorgDetected (sW3.height - 1))) :=
  ⟨by decide, by decide, by decide, by decide,
    index_block_reorg envW [blockW0, blockW1] sW3 false blockW1 9
      (by decide) (by decide) (by decide) (by decide)⟩

/-- Claim C4: when `index_block` succeeds on a block (done = false) at a
height of positive subsidy, the deque the coinbase (transaction 0, processed
last) consumes is the subsidy range followed by the per-transaction leftover
(fee) ranges in the order the non-coinbase transactions produced them, and
the ordinals covered by the coinbase's assigned ranges followed by its
leftover are exactly, in order, the ordinals of that deque — so every
consumed fee ordinal appears in the coinbase's range list after the subsidy
ordinals. -/
theorem index_block_coinbase_last (env : Env) (blocks : List Block) (s : S) (rg : Bool)
    (g : BlockGhost) (hok : (index_block env blocks s rg).2.2 = .ok (false, g))
    (hs : 0 < env.subsidy s.height) :
    g.coinbaseDeque =
      (env.startingOrdinal s.height, env.startingOrdinal s.height + env.subsidy s.height)
        :: g.leftovers.flatten ∧
    coverage ((g.coinbaseResults.map fun r => r.assigned).flatten ++ g.coinbaseFinal) =
      coverage g.coinbaseDeque := by
  cases hb : blocks.get? s.height with
  | none =>
    rw [index_block_none env blocks s rg hb] at hok
    simp at hok
  | some block =>
    have hE : index_block env blocks s rg = indexBlockBody env block s rg := by
      by_cases h0 : s.height = 0
      · exact index_block_zero env blocks s rg block hb h0
      · cases hl : lookupA s.heightToBlockHash (s.height - 1) with
        | none =>
          rw [index_block_panic_eq env blocks s rg block hb h0 hl] at hok
          simp at hok
        | some ph =>
          by_cases hp : ph = block.prev_blockhash
          · exact index_block_link env blocks s rg block ph hb h0 hl hp
          · rw [index_block_reorg_eq env blocks s rg block ph hb h0 hl hp] at hok
            simp at hok
    rw [hE] at hok
    cases hp : processTxs env.isCommon s (block.txdata.drop 1) (cbInit env s) with
    | mk s1 res1 =>
      cases res1 with
      | error e =>
        rw [indexBlockBody_processTxs_err env block s rg s1 e hp] at hok
        simp at hok
      | ok triple =>
        obtain ⟨cb, lfs, cnt⟩ := triple
        have hcb : cb = cbInit env s ++ lfs.flatten :=
          processTxs_ok env.isCommon (block.txdata.drop 1) s (cbInit env s) s1 cb lfs cnt hp
        cases hh : block.txdata.head? with
        | none =>
          rw [indexBlockBody_ok_noCb env block s rg s1 cb lfs cnt hp hh] at hok
          simp only [Prod.mk.injEq, Except.ok.injEq] at hok
          obtain ⟨-, hg⟩ := hok
          subst hg
          refine ⟨?_, by simp⟩
          simp only [hcb, cbInit_pos env s hs]
          rfl
        | some tx0 =>
          rw [indexBlockBody_ok_cb env block s rg s1 cb lfs cnt tx0 hp hh] at hok
          cases hix : index_transaction env.isCommon tx0.txid s1 tx0.output 0 cb with
          | mk s2 res2 =>
            rw [hix] at hok
            cases res2 with
            | error e => simp at hok
            | ok pair =>
              obtain ⟨final, results⟩ := pair
              simp only [Prod.mk.injEq, Except.ok.injEq] at hok
              obtain ⟨-, hg⟩ := hok
              subst hg
              obtain ⟨-, -, hcov⟩ :=
                index_transaction_ok env.isCommon tx0.txid tx0.output s1 0 cb s2 final results hix
              refine ⟨?_, hcov⟩
              simp only [hcb, cbInit_pos env s hs]
              rfl

/-- Witness for C4: a block with a coinbase of value 55 and one transaction
spending 15 ordinals into an output of 10, leaving a 5-ordinal fee; subsidy
50 starting at ordinal 0. -/
theorem index_block_coinbase_last_witness :
    (index_block envW [blockW4] sW4 false).2.2 = .ok (false, gW4) ∧
    0 < envW.subsidy sW4.height ∧
    (gW4.coinbaseDeque =
      (envW.startingOrdinal sW4.height, envW.startingOrdinal sW4.height + envW.subsidy sW4.height)
        :: gW4.leftovers.flatten ∧
    coverage ((gW4.coinbaseResults.map fun r => r.assigned).flatten ++ gW4.coinbaseFinal) =
      coverage gW4.coinbaseDeque) :=
  ⟨by decide, by decide,
    index_block_coinbase_last envW [blockW4] sW4 false gW4 (by decide) (by decide)⟩

/-- Claim C5: in the per-output loop (value `v`, remaining initialized to
`v`), the `ORDINAL_TO_SATPOINT` writes are exactly one write per assigned
range whose base is uncommon, keyed by that base, valued the satpoint of the
current outpoint at offset `v − remaining` — which equals the cumulative
width of the ranges assigned before (the write is issued before the range is
split or assigned, so it uses the pre-assignment `remaining`) — and no write
at all for a popped range whose base is common. -/
theorem assign_satpoint_writes (ic : Nat → Bool) (op : OutPoint) (v : Nat)
    (deque : List Range) (r : OutputResult) (h : assignLoop ic op v v deque = .ok r) :
    r.satWrites = cumWrites ic op 0 r.assigned ∧
    ∀ p ∈ r.satWrites, ic p.1 = false := by
  obtain ⟨-, -, -, hsat⟩ := assignLoop_ok ic op v deque v r h
  have h0 := hsat (le_refl v)
  rw [Nat.sub_self] at h0
  refine ⟨h0, ?_⟩
  intro p hp
  rw [h0] at hp
  exact cumWrites_uncommon ic op r.assigned 0 p hp

/-- Witness for C5: an output of value 10 at outpoint `(7, 0)` over
`[(0, 4), (7, 20)]` with ordinal 0 uncommon: one satpoint write at ordinal 0,
offset 0; the split range `(7, 13)` has common base 7 and contributes no
write. -/
theorem assign_satpoint_writes_witness :
    assignLoop envW.isCommon ⟨7, 0⟩ 10 10 [(0, 4), (7, 20)] = .ok rW5 ∧
    (rW5.satWrites = cumWrites envW.isCommon ⟨7, 0⟩ 0 rW5.assigned ∧
      ∀ p ∈ rW5.satWrites, envW.isCommon p.1 = false) :=
  ⟨by decide,
    assign_satpoint_writes envW.isCommon ⟨7, 0⟩ 10 [(0, 4), (7, 20)] rW5 (by decide)⟩

/-- Claim C6 (code bug): `commit` flushes, adds the locally accumulated
`outputs_traversed` to `STATISTIC[OutputsTraversed]` and 1 to
`STATISTIC[Commits]`, but does NOT reset the local counter: starting from a
state with 3 outputs traversed, after one commit the local counter is still
3 (the claim and the spec say it is reset to 0), so a second commit adds the
same 3 outputs again, leaving the statistic at 6 for 3 traversed outputs. -/
theorem commit_retains_outputs_traversed :
    (commitS sC6).outputs_traversed = 3 ∧
    (commitS sC6).stats.outputsTraversed = 3 ∧
    (commitS (commitS sC6)).stats.outputsTraversed = 6 := by decide

/-- Counterexample for C7: on a one-block chain the loop performs an
intermediate commit on iteration i = 0 (the trace records
`committed = true` at i = 0), because `0 % 5000 == 0` holds and one block
was just indexed; the claim asserts no intermediate commit happens at
i = 0. -/
theorem update_loop_commits_at_iteration_zero :
    (updateLoop envW [blockW7] none 0 3 S.empty false 0 0).map (fun o => o.trace) =
      some [⟨0, false, true⟩, ⟨1, true, false⟩] := by decide

/-- Claim C7 (amended): in a run of the updater loop started with
`uncommitted = 0` at iteration 0, an intermediate commit is performed at
iteration j exactly when the uncommitted counter after that iteration's
block (reconstructed from the trace prefix by `uncAfter`/`uncStep`) is
positive and j is a multiple of 5000 — including j = 0: the claim's
exclusion of i = 0 does not hold in the code. -/
theorem update_loop_commit_iff (env : Env) (blocks : List Block) (hl : Option Nat)
    (intr : Nat) (fuel : Nat) (s : S) (out : LoopOut)
    (h : updateLoop env blocks hl intr fuel s false 0 0 = some out) :
    ∀ j log, out.trace.get? j = some log →
      log.i = j ∧
      (log.committed = true ↔
        0 < uncStep log.done (uncAfter 0 (out.trace.take j)) ∧ j % 5000 = 0) := by
  intro j log hj
  have hx := updateLoop_trace_spec env blocks hl intr fuel s false 0 0 out h j log hj
  simpa using hx

/-- Witness for C7's amended claim: the one-block run, at iteration j = 0,
where the commit condition holds (one uncommitted block, 0 % 5000 = 0). -/
theorem update_loop_commit_iff_witness :
    updateLoop envW [blockW7] none 0 3 S.empty false 0 0 = some outW7 ∧
    outW7.trace.get? 0 = some ⟨0, false, true⟩ ∧
    ((⟨0, false, true⟩ : IterLog).i = 0 ∧
      ((⟨0, false, true⟩ : IterLog).committed = true ↔
        0 < uncStep (⟨0, false, true⟩ : IterLog).done (uncAfter 0 (outW7.trace.take 0)) ∧
        0 % 5000 = 0)) :=
  ⟨by decide, by decide,
    update_loop_commit_iff envW [blockW7] none 0 3 S.empty outW7 (by decide) 0
      ⟨0, false, true⟩ (by decide)⟩

/-- Counterexample for C8: the specification's `encode_range` rejects the
out-of-domain range `(2^51, 2^51 + 1)` (base ≥ 2^51), but the code's inline
encoding never fails: `index_transaction` succeeds on that range and writes
for it exactly the same 11 bytes as for the in-domain range `(0, 1)` —
silent truncation/aliasing instead of the claimed domain error. -/
theorem encode_out_of_domain_no_error :
    encode_range_spec (2 ^ 51) (2 ^ 51 + 1) = none ∧
    (index_transaction (fun _ => true) 7 S.empty [(⟨1⟩ : TxOut)] 0 [(2 ^ 51, 2 ^ 51 + 1)]).2 =
      .ok ([], [⟨[(2 ^ 51, 2 ^ 51 + 1)], encodeAssigned (0, 1), [], []⟩]) := by
  constructor
  · decide
  · decide

/-- Claim C8 (amended): encoding an assigned range never fails; the buffer of
every successful output loop is exactly the concatenation of the 11-byte
little-endian serializations of `base | ((end − base) << 51)` of its
assigned ranges (always exactly 11 bytes per range, silently truncating
out-of-domain values). -/
theorem assign_encodes_low_bytes (ic : Nat → Bool) (op : OutPoint) (v rem : Nat)
    (deque : List Range) (r : OutputResult) (h : assignLoop ic op v rem deque = .ok r) :
    r.bytes = (r.assigned.map encodeAssigned).flatten ∧
    ∀ a : Range, (encodeAssigned a).length = 11 := by
  obtain ⟨-, -, hby, -⟩ := assignLoop_ok ic op v deque rem r h
  exact ⟨hby, fun a => by simp [encodeAssigned, leBytes]⟩

/-- Witness for C8's amended claim: an output of value 3 consuming
`[(0, 3)]`. -/
theorem assign_encodes_low_bytes_witness :
    assignLoop (fun _ => true) ⟨7, 0⟩ 3 3 [(0, 3)] = .ok rW8 ∧
    (rW8.bytes = (rW8.assigned.map encodeAssigned).flatten ∧
      ∀ a : Range, (encodeAssigned a).length = 11) :=
  ⟨by decide, assign_encodes_low_bytes (fun _ => true) ⟨7, 0⟩ 3 3 [(0, 3)] rW8 (by decide)⟩

/-- Claim C9: `get_and_remove` on a cache hit removes the cache entry and
returns it, incrementing the cached-hit counter and leaving the table
untouched; on a cache miss it removes and returns the table row; it fails
with the missing-outpoint error exactly when the outpoint's key is in
neither, and in the error case the state is returned unchanged. -/
theorem get_and_remove_spec (s : S) (op : OutPoint) :
    (∀ v, lookupA s.cache (encodeOutpoint op) = some v →
      get_and_remove s op =
        ({ s with cache := eraseA s.cache (encodeOutpoint op),
                  outputs_cached := s.outputs_cached + 1 }, .ok v)) ∧
    (∀ v, lookupA s.cache (encodeOutpoint op) = none →
      lookupA s.outTable (encodeOutpoint op) = some v →
      get_and_remove s op =
        ({ s with outTable := eraseA s.outTable (encodeOutpoint op) }, .ok v)) ∧
    (lookupA s.cache (encodeOutpoint op) = none →
      lookupA s.outTable (encodeOutpoint op) = none →
      get_and_remove s op = (s, .error (.missingOutpoint (encodeOutpoint op)))) ∧
    (∀ s' e, get_and_remove s op = (s', .error e) →
      s' = s ∧ e = .missingOutpoint (encodeOutpoint op) ∧
      lookupA s.cache (encodeOutpoint op) = none ∧
      lookupA s.outTable (encodeOutpoint op) = none) := by
  obtain ⟨h1, h2, h3⟩ := get_and_remove_cases s op
  refine ⟨h1, h2, h3, ?_⟩
  intro s' e h
  cases hc : lookupA s.cache (encodeOutpoint op) with
  | some v => rw [h1 v hc] at h; simp at h
  | none =>
    cases ht : lookupA s.outTable (encodeOutpoint op) with
    | some v => rw [h2 v hc ht] at h; simp at h
    | none =>
      rw [h3 hc ht] at h
      simp only [Prod.mk.injEq, Except.error.injEq] at h
      exact ⟨h.1.symm, h.2.symm, rfl, rfl⟩

/-- Witness for C9: a cache hit on outpoint `(5, 1)` holding bytes
`[1, 2]`. -/
theorem get_and_remove_spec_witness :
    lookupA sW9.cache (encodeOutpoint ⟨5, 1⟩) = some [1, 2] ∧
    get_and_remove sW9 ⟨5, 1⟩ =
      ({ sW9 with cache := eraseA sW9.cache (encodeOutpoint ⟨5, 1⟩),
                  outputs_cached := sW9.outputs_cached + 1 }, .ok [1, 2]) :=
  ⟨by decide, (get_and_remove_spec sW9 ⟨5, 1⟩).1 [1, 2] (by decide)⟩

/-- Claim C10: for a block present at height h > 0, `index_block` hits the
`unwrap()` panic (modelled as the `panicUnwrap` error) exactly when
`HEIGHT_TO_BLOCK_HASH` has no row at h − 1; in particular when every height
below h has a row — which the updater guarantees by resuming at the last
indexed height plus one and writing each indexed block's hash — the panic
branch is unreachable. -/
theorem index_block_panic_iff (env : Env) (blocks : List Block) (s : S) (rg : Bool)
    (block : Block) (hb : blocks.get? s.height = some block) (h0 : 0 < s.height) :
    ((index_block env blocks s rg).2.2 = .error Err.panicUnwrap ↔
      lookupA s.heightToBlockHash (s.height - 1) = none) ∧
    ((∀ k, k < s.height → ∃ hsh, lookupA s.heightToBlockHash k = some hsh) →
      (index_block env blocks s rg).2.2 ≠ .error Err.panicUnwrap) := by
  have hne : s.height ≠ 0 := by omega
  have hiff : (index_block env blocks s rg).2.2 = .error Err.panicUnwrap ↔
      lookupA s.heightToBlockHash (s.height - 1) = none := by
    cases hl : lookupA s.heightToBlockHash (s.height - 1) with
    | none =>
      rw [index_block_panic_eq env blocks s rg block hb hne hl]
      simp
    | some ph =>
      by_cases hp : ph = block.prev_blockhash
      · rw [index_block_link env blocks s rg block ph hb hne hl hp]
        simp only [iff_false, reduceCtorEq]
        exact indexBlockBody_not_panic env block s rg
      · rw [index_block_reorg_eq env blocks s rg block ph hb hne hl hp]
        simp
  refine ⟨hiff, fun hall hpanic => ?_⟩
  obtain ⟨hsh, hl⟩ := hall (s.height - 1) (by omega)
  have := hiff.mp hpanic
  rw [hl] at this
  cases this

/-- Witness for C10: height 1 with an empty `HEIGHT_TO_BLOCK_HASH` table —
the lookup at height 0 is `none` and `index_block` panics. -/
theorem index_block_panic_iff_witness :
    [blockW0, blockW1].get? sW10.height = some blockW1 ∧ 0 < sW10.height ∧
    (((index_block envW [blockW0, blockW1] sW10 false).2.2 = .error Err.panicUnwrap ↔
        lookupA sW10.heightToBlockHash (sW10.height - 1) = none) ∧
      ((∀ k, k < sW10.height → ∃ hsh, lookupA sW10.heightToBlockHash k = some hsh) →
        (index_block envW [blockW0, blockW1] sW10 false).2.2 ≠ .error Err.panicUnwrap)) :=
  ⟨by decide, by decide,
    index_block_panic_iff envW [blockW0, blockW1] sW10 false blockW1 (by decide) (by decide)⟩

end OrdCore